import Mathlib

/-!
Verification of the fastAttention repository (flash_attention.ipynb).

The notebook implements, over numpy arrays of floats:
  standard_softmax, safe_softmax, online_softmax  (vector softmax routines),
  flash_attention  (the block-tiled attention driver),
  standard_attention  (the full-matrix reference).

We embed the code shallowly over exact real arithmetic:
  a matrix is a List (List Real) of rows; a vector is a List Real.
The float negative infinity used as the initial running maximum is modelled
as the bottom element of WithBot Real; the IEEE fact exp(-inf - c) = 0 is
modelled by the function eexpSub below, which is the only place the
sentinel is ever exponentiated in the source.
-/

namespace FastAttention

noncomputable section

/-- Dot product of two equal-length rows, as computed by numpy for the
entries of a matrix product. -/
def dot (a b : List ℝ) : ℝ := (List.zipWith (fun x y => x * y) a b).sum

/-- One step of the running maximum: np.maximum of the running value
(possibly the -inf sentinel, modelled as bottom) with a new real score.
The softmax loops update the maximum with a conditional
(if v greater than the running value, replace it), which computes the
same function. -/
def mergeMax (m : WithBot ℝ) (v : ℝ) : ℝ :=
  WithBot.recBotCoe v (fun a => max a v) m

/-- Running maximum of a list of reals, starting from the -inf sentinel:
the fold performed by the first loop of safe_softmax and online_softmax,
and by np.max along a row. -/
def runMax (x : List ℝ) : WithBot ℝ :=
  x.foldl (fun m v => ↑(mergeMax m v)) ⊥

/-- Row maximum as a real number: np.max of a row.  The source only applies
np.max to nonempty rows, where the sentinel default is irrelevant. -/
def rowMax (x : List ℝ) : ℝ := (runMax x).unbot' 0

/-- Exponential of (m - c) where the running maximum m may still be the
-inf sentinel: IEEE evaluates exp(-inf - c) to exactly 0, and the source
relies on that to give the first merge of a row zero weight. -/
def eexpSub (m : WithBot ℝ) (c : ℝ) : ℝ :=
  WithBot.recBotCoe 0 (fun a => Real.exp (a - c)) m

/-- Naive softmax: exponentiate, normalize by the total (first code cell). -/
def standard_softmax (x : List ℝ) : List ℝ :=
  let total := (x.map Real.exp).sum
  x.map (fun v => Real.exp v / total)

/-- Numerically safe softmax: subtract the running maximum, found by the
first loop starting from -inf, before exponentiating.  For an empty input
both loops run zero times and the result is empty, so the real default
extracted from the sentinel is never exponentiated. -/
def safe_softmax (x : List ℝ) : List ℝ :=
  let max_value := (runMax x).unbot' 0
  let total := (x.map (fun v => Real.exp (v - max_value))).sum
  x.map (fun v => Real.exp (v - max_value) / total)

/-- Body of the single pass of online_softmax: update the running maximum
with the new element, then rescale the old total by exp(old_max - max_value)
(zero when old_max is still the -inf sentinel) and add the contribution of
the new element. -/
def onlineStep (st : ℝ × WithBot ℝ) (v : ℝ) : ℝ × WithBot ℝ :=
  let m := mergeMax st.2 v
  (st.1 * eexpSub st.2 m + Real.exp (v - m), ↑m)

/-- Online softmax: a single pass maintains the pair (total, max_value)
starting from (0, -inf); a second pass normalizes. -/
def online_softmax (x : List ℝ) : List ℝ :=
  let st := x.foldl onlineStep ((0 : ℝ), (⊥ : WithBot ℝ))
  x.map (fun v => Real.exp (v - st.2.unbot' 0) / st.1)

/-- Scalar times row, pointwise: numpy broadcasting of a per-row scalar
over a row. -/
def smulRow (c : ℝ) (v : List ℝ) : List ℝ := v.map (fun x => c * x)

/-- Pointwise sum of two rows of equal length. -/
def addRow (a b : List ℝ) : List ℝ := List.zipWith (fun x y => x + y) a b

/-- The all-zero row of a given width. -/
def zeroRow (d : ℕ) : List ℝ := List.replicate d 0

/-- Row vector times matrix: the row of a numpy matrix product, as the
weighted sum of the rows of the right factor. -/
def vecMat (w : List ℝ) (B : List (List ℝ)) : List ℝ :=
  (List.zipWith smulRow w B).foldr addRow (zeroRow ((B.headD []).length))

/-- Matrix product A B (np.matmul). -/
def matmul (A B : List (List ℝ)) : List (List ℝ) := A.map (fun r => vecMat r B)

/-- Score matrix Q Kᵀ (np.matmul(q, k.T)): entry (i, j) is the dot product
of row i of Q with row j of K. -/
def scoresMat (Q K : List (List ℝ)) : List (List ℝ) :=
  Q.map (fun qr => K.map (fun kr => dot qr kr))

/-- Full-matrix reference attention (standard_attention in the source):
scores = Q Kᵀ; weights = exp(scores - rowmax) normalized by row sums;
output = weights V. -/
def standard_attention (Q K V : List (List ℝ)) : List (List ℝ) :=
  let scores := scoresMat Q K
  let weights := scores.map (fun r => r.map (fun x => Real.exp (x - rowMax r)))
  let weightsN := weights.map (fun r => r.map (fun x => x / r.sum))
  matmul weightsN V

/-- Per-row running state of the tiled algorithm: the output row o, the
running maximum m (initially the -inf sentinel) and the running
normalizer l.  The source keeps these as three arrays sliced into
parallel row blocks; following the design notes of the spec we keep one
record per query row. -/
structure RowSt where
  o : List ℝ
  m : WithBot ℝ
  l : ℝ

/-- Initial state of a query row: output row zeroed (np.zeros_like(q)),
maximum at the -inf sentinel, normalizer zero. -/
def initRow (qr : List ℝ) : RowSt :=
  { o := qr.map (fun _ => 0), m := ⊥, l := 0 }

/-- Exponentials of a list of scores shifted by a baseline c: the rows of
np.exp(s - m). -/
def wRow (ss : List ℝ) (c : ℝ) : List ℝ := ss.map (fun x => Real.exp (x - c))

/-- One row of the local score block s_i_j = q_block k_blockᵀ (line 9). -/
def sij (qr : List ℝ) (kb : List (List ℝ)) : List ℝ :=
  kb.map (fun kr => dot qr kr)

/-- Local row maximum m_i_j = np.max(s_i_j, axis=1) for one row (line 10). -/
def mij (qr : List ℝ) (kb : List (List ℝ)) : ℝ := rowMax (sij qr kb)

/-- One row of the exponentiated scores p_i_j = np.exp(s_i_j - m_i_j)
(line 10). -/
def pij (qr : List ℝ) (kb : List (List ℝ)) : List ℝ :=
  wRow (sij qr kb) (mij qr kb)

/-- Local row sum l_i_j = np.sum(p_i_j, axis=1) for one row (line 10). -/
def lij (qr : List ℝ) (kb : List (List ℝ)) : ℝ := (pij qr kb).sum

/-- Merged row maximum m_i_new = np.maximum(m_block, m_i_j) (line 11). -/
def mnew (st : RowSt) (qr : List ℝ) (kb : List (List ℝ)) : ℝ :=
  mergeMax st.m (mij qr kb)

/-- Merged normalizer
l_i_new = l_block exp(m_block - m_i_new) + l_i_j exp(m_i_j - m_i_new)
(line 11), where the first exponential is 0 while m_block is still the
-inf sentinel. -/
def lnew (st : RowSt) (qr : List ℝ) (kb : List (List ℝ)) : ℝ :=
  st.l * eexpSub st.m (mnew st qr kb)
    + lij qr kb * Real.exp (mij qr kb - mnew st qr kb)

/-- Body of the inner loop of flash_attention for one query row of a row
block, against the key block kb and value block vb (lines 9 to 13 of the
algorithm as commented in the source).  The output row is
(current_o + updated_old_o) / l_i_new with
current_o = np.exp(m_i_j - m_i_new) * p_i_j @ v_block (the exponential
scales the rows of p before the product with the value block) and
updated_old_o = l_block * np.exp(m_block - m_i_new) * o_block. -/
def rowStep (kb vb : List (List ℝ)) (qr : List ℝ) (st : RowSt) : RowSt :=
  { o := (addRow
        (vecMat (smulRow (Real.exp (mij qr kb - mnew st qr kb)) (pij qr kb)) vb)
        (smulRow (st.l * eexpSub st.m (mnew st qr kb)) st.o)).map
      (fun y => y / lnew st qr kb),
    m := ↑(mnew st qr kb),
    l := lnew st qr kb }

/-- Offsets 0, b, 2b, ... below N: the Python range(0, N, b) driving the
block slicing (for positive b). -/
def pyRange (N b : ℕ) : List ℕ :=
  (List.range ((N + b - 1) / b)).map (fun i => i * b)

/-- Python slices x[i : i+b] for i in range(0, N, b): the block lists of
flash_attention.  N is always the number of rows of q in the source, also
when slicing k and v. -/
def pyBlocks (x : List α) (N b : ℕ) : List (List α) :=
  (pyRange N b).map (fun i => (x.drop i).take b)

/-- State of every query row after the double loop of flash_attention:
outer fold over the zipped key/value blocks, inner update of each row
block, each row of a row block updated by rowStep.  The inner loop of the
source touches only the state of row block i in iteration i, so it is a
map over the row blocks. -/
def flashStates (q k v : List (List ℝ)) (b_r b_c : ℕ) : List (List RowSt) :=
  let N := q.length
  let qbs := pyBlocks q N b_r
  let kbs := pyBlocks k N b_c
  let vbs := pyBlocks v N b_c
  let sts0 := pyBlocks (q.map initRow) N b_r
  (kbs.zip vbs).foldl
    (fun sts kv =>
      List.zipWith (fun qb stb => List.zipWith (fun qr st => rowStep kv.1 kv.2 qr st) qb stb)
        qbs sts)
    sts0

/-- Final output assembly of flash_attention: collect the output rows of
every row block and concatenate the blocks (np.concatenate(o_blocks)). -/
def flashCompute (q k v : List (List ℝ)) (b_r b_c : ℕ) : List (List ℝ) :=
  ((flashStates q k v b_r b_c).map (fun stb => stb.map RowSt.o)).flatten

/-- Entry point flash_attention with its four asserts.  A zero block size
makes the Python modulus raise, so it also produces no output; the other
guards are the literal asserts of the source: rows of q divisible by b_r,
rows of k and of v divisible by b_c, and equal column counts of q, k, v
(shape[1], the length of the first row). -/
def flash_attention (q k v : List (List ℝ)) (b_r b_c : ℕ) :
    Option (List (List ℝ)) :=
  if b_r = 0 ∨ b_c = 0 then none
  else if ¬ q.length % b_r = 0 then none
  else if ¬ k.length % b_c = 0 then none
  else if ¬ v.length % b_c = 0 then none
  else if ¬ ((q.headD []).length = (k.headD []).length ∧
             (k.headD []).length = (v.headD []).length) then none
  else some (flashCompute q k v b_r b_c)

/-- Closed form of the per-row state after the loop of flash_attention has
seen the key rows K and value rows V: the running maximum is the maximum
score, the normalizer is the sum of the max-shifted exponentials, and the
output row is the softmax-weighted combination of the value rows.  This is
what one numerically safe pass with a single global maximum computes. -/
def closedRow (qr : List ℝ) (K V : List (List ℝ)) : RowSt :=
  { o := (vecMat (wRow (sij qr K) (rowMax (sij qr K))) V).map
      (fun y => y / (wRow (sij qr K) (rowMax (sij qr K))).sum),
    m := runMax (sij qr K),
    l := (wRow (sij qr K) (rowMax (sij qr K))).sum }

/-! ### Running maximum lemmas -/

lemma mergeMax_bot (v : ℝ) : mergeMax ⊥ v = v := rfl

lemma mergeMax_coe_arg (a v : ℝ) : mergeMax (↑a) v = max a v := rfl

lemma coe_mergeMax (m : WithBot ℝ) (v : ℝ) :
    (↑(mergeMax m v) : WithBot ℝ) = max m ↑v := by
  induction m using WithBot.recBotCoe with
  | bot => simp [mergeMax_bot, max_eq_right bot_le]
  | coe a => rw [mergeMax_coe_arg, WithBot.coe_max]

lemma foldl_mergeMax_start (x : List ℝ) :
    ∀ m : WithBot ℝ,
      x.foldl (fun m v => ↑(mergeMax m v)) m = max m (runMax x) := by
  induction x with
  | nil => intro m; simp [runMax, max_eq_left bot_le]
  | cons v xs ih =>
    intro m
    have hr : runMax (v :: xs) = xs.foldl (fun m w => ↑(mergeMax m w)) ↑v := by
      simp only [runMax, List.foldl_cons, mergeMax_bot]
    simp only [List.foldl_cons]
    rw [hr, ih, ih, coe_mergeMax, max_assoc]

lemma runMax_cons (v : ℝ) (xs : List ℝ) :
    runMax (v :: xs) = max ↑v (runMax xs) := by
  have hr : runMax (v :: xs) = xs.foldl (fun m w => ↑(mergeMax m w)) ↑v := by
    simp only [runMax, List.foldl_cons, mergeMax_bot]
  rw [hr, foldl_mergeMax_start]

lemma runMax_append (x y : List ℝ) :
    runMax (x ++ y) = max (runMax x) (runMax y) := by
  unfold runMax
  rw [List.foldl_append]
  exact foldl_mergeMax_start y _

lemma runMax_ne_bot {x : List ℝ} (hx : x ≠ []) : runMax x ≠ ⊥ := by
  cases x with
  | nil => exact absurd rfl hx
  | cons v xs =>
    rw [runMax_cons]
    have h : (⊥ : WithBot ℝ) < max ↑v (runMax xs) :=
      lt_of_lt_of_le (WithBot.bot_lt_coe v) (le_max_left _ _)
    exact h.ne'

lemma runMax_eq_coe_rowMax {x : List ℝ} (hx : x ≠ []) :
    runMax x = ↑(rowMax x) := by
  obtain ⟨a, ha⟩ := WithBot.ne_bot_iff_exists.mp (runMax_ne_bot hx)
  rw [rowMax, ← ha, WithBot.unbot'_coe]

lemma coe_le_runMax {v : ℝ} {x : List ℝ} (hv : v ∈ x) :
    (↑v : WithBot ℝ) ≤ runMax x := by
  induction x with
  | nil => cases hv
  | cons w xs ih =>
    rw [runMax_cons]
    rcases List.mem_cons.mp hv with h | h
    · exact h ▸ le_max_left _ _
    · exact le_trans (ih h) (le_max_right _ _)

lemma le_rowMax_of_mem {v : ℝ} {x : List ℝ} (hv : v ∈ x) :
    v ≤ rowMax x := by
  have hx : x ≠ [] := by rintro rfl; cases hv
  have h := coe_le_runMax hv
  rw [runMax_eq_coe_rowMax hx] at h
  exact_mod_cast h

lemma coe_foldl_max (x : List ℝ) :
    ∀ a : ℝ, (↑(x.foldl max a) : WithBot ℝ)
      = x.foldl (fun m v => ↑(mergeMax m v)) ↑a := by
  induction x with
  | nil => intro a; rfl
  | cons v xs ih =>
    intro a
    show (↑((xs.foldl max (max a v))) : WithBot ℝ) = xs.foldl _ ↑(mergeMax ↑a v)
    rw [ih, mergeMax_coe_arg]

/-! ### Exponential sum lemmas -/

lemma exp_sub_mul (p q r : ℝ) :
    Real.exp (p - q) * Real.exp (q - r) = Real.exp (p - r) := by
  rw [← Real.exp_add]
  congr 1
  ring

lemma sum_exp_shift (x : List ℝ) (a b : ℝ) :
    (x.map (fun v => Real.exp (v - a))).sum * Real.exp (a - b)
      = (x.map (fun v => Real.exp (v - b))).sum := by
  rw [← List.sum_map_mul_right]
  congr 1
  exact List.map_congr_left fun v _ => exp_sub_mul v a b

lemma sum_exp_pos {x : List ℝ} (hx : x ≠ []) (c : ℝ) :
    0 < (x.map (fun v => Real.exp (v - c))).sum := by
  apply List.sum_pos
  · intro y hy
    obtain ⟨v, _, rfl⟩ := List.mem_map.mp hy
    exact Real.exp_pos _
  · simpa using hx

lemma eexpSub_bot (c : ℝ) : eexpSub ⊥ c = 0 := rfl

lemma eexpSub_coe (a c : ℝ) : eexpSub ↑a c = Real.exp (a - c) := rfl

/-! ### Softmax routines: equivalence -/

lemma online_fold_coe (x : List ℝ) :
    ∀ a t : ℝ,
      x.foldl onlineStep (t, (↑a : WithBot ℝ))
        = (t * Real.exp (a - x.foldl max a)
            + (x.map (fun v => Real.exp (v - x.foldl max a))).sum,
           ↑(x.foldl max a)) := by
  induction x with
  | nil => intro a t; simp
  | cons v xs ih =>
    intro a t
    have hstep : onlineStep (t, (↑a : WithBot ℝ)) v
        = (t * Real.exp (a - max a v) + Real.exp (v - max a v), ↑(max a v)) := by
      simp [onlineStep, mergeMax_coe_arg, eexpSub_coe]
    simp only [List.foldl_cons, List.map_cons, List.sum_cons]
    rw [hstep, ih (max a v)]
    set c := xs.foldl max (max a v) with hc
    have h1 := exp_sub_mul a (max a v) c
    have h2 := exp_sub_mul v (max a v) c
    simp only [Prod.mk.injEq]
    refine ⟨?_, trivial⟩
    linear_combination (t : ℝ) * h1 + h2

lemma online_eq_safe (x : List ℝ) : online_softmax x = safe_softmax x := by
  cases x with
  | nil => rfl
  | cons v xs =>
    have h0 : onlineStep ((0 : ℝ), (⊥ : WithBot ℝ)) v = (Real.exp (v - v), ↑v) := by
      simp [onlineStep, mergeMax_bot, eexpSub_bot]
    have hrm : runMax (v :: xs) = ↑(xs.foldl max v) := by
      have hr : runMax (v :: xs) = xs.foldl (fun m w => ↑(mergeMax m w)) ↑v := by
        simp only [runMax, List.foldl_cons, mergeMax_bot]
      rw [hr, ← coe_foldl_max]
    have hfold : (v :: xs).foldl onlineStep ((0 : ℝ), (⊥ : WithBot ℝ))
        = ((((v :: xs).map (fun w => Real.exp (w - xs.foldl max v))).sum : ℝ),
           (↑(xs.foldl max v) : WithBot ℝ)) := by
      simp only [List.foldl_cons]
      rw [h0, online_fold_coe xs v (Real.exp (v - v))]
      simp only [List.map_cons, List.sum_cons, Prod.mk.injEq]
      exact ⟨by rw [exp_sub_mul], trivial⟩
    simp only [online_softmax, safe_softmax]
    rw [hfold, hrm]
    simp [WithBot.unbot'_coe]

lemma safe_eq_standard (x : List ℝ) : safe_softmax x = standard_softmax x := by
  have hss : safe_softmax x
      = x.map (fun v => Real.exp (v - (runMax x).unbot' 0)
          / (x.map (fun w => Real.exp (w - (runMax x).unbot' 0))).sum) := rfl
  have hst : standard_softmax x
      = x.map (fun v => Real.exp v / (x.map Real.exp).sum) := rfl
  rw [hss, hst]
  set m := (runMax x).unbot' 0 with hm
  have htot : (x.map (fun w => Real.exp (w - m))).sum
      = (x.map Real.exp).sum * Real.exp (0 - m) := by
    rw [← sum_exp_shift x 0 m]
    congr 2
    exact List.map_congr_left fun w _ => by rw [sub_zero]
  apply List.map_congr_left
  intro v _
  have hv : Real.exp (v - m) = Real.exp v * Real.exp (0 - m) := by
    rw [← exp_sub_mul v 0 m, sub_zero]
  rw [hv, htot, mul_div_mul_right _ _ (Real.exp_ne_zero (0 - m))]

lemma online_eq_standard (x : List ℝ) : online_softmax x = standard_softmax x :=
  (online_eq_safe x).trans (safe_eq_standard x)

lemma standard_softmax_stochastic {x : List ℝ} (hx : x ≠ []) :
    (∀ y ∈ standard_softmax x, 0 ≤ y ∧ y ≤ 1) ∧ (standard_softmax x).sum = 1 := by
  have hss : standard_softmax x
      = x.map (fun v => Real.exp v / (x.map Real.exp).sum) := rfl
  have hpos : 0 < (x.map Real.exp).sum := by
    apply List.sum_pos
    · intro y hy
      obtain ⟨v, _, rfl⟩ := List.mem_map.mp hy
      exact Real.exp_pos v
    · simpa using hx
  constructor
  · intro y hy
    rw [hss] at hy
    obtain ⟨v, hvx, rfl⟩ := List.mem_map.mp hy
    refine ⟨div_nonneg (Real.exp_pos v).le hpos.le, ?_⟩
    rw [div_le_one hpos]
    exact List.single_le_sum
      (fun z hz => by
        obtain ⟨w, _, rfl⟩ := List.mem_map.mp hz
        exact (Real.exp_pos w).le)
      _ (List.mem_map_of_mem Real.exp hvx)
  · rw [hss]
    simp only [div_eq_mul_inv]
    rw [List.sum_map_mul_right]
    exact mul_inv_cancel₀ hpos.ne'

/-- Claim C8: over exact real arithmetic the naive form never overflows, and
the single-pass online softmax, the two-pass max-subtracted safe softmax,
and the naive softmax return the same result vector for every real input
vector; in particular online and safe agree for every input. -/
theorem claim_C8_softmax_equivalence (x : List ℝ) :
    online_softmax x = safe_softmax x ∧ safe_softmax x = standard_softmax x ∧
      online_softmax x = standard_softmax x :=
  ⟨online_eq_safe x, safe_eq_standard x, online_eq_standard x⟩

/-- Claim C9: for every nonempty real input vector, each of the three
softmax routines returns a vector whose entries all lie in the interval
from 0 to 1 and whose entries sum exactly to 1. -/
theorem claim_C9_softmax_row_stochastic (x : List ℝ) (hx : x ≠ []) :
    ((∀ y ∈ standard_softmax x, 0 ≤ y ∧ y ≤ 1) ∧ (standard_softmax x).sum = 1)
    ∧ ((∀ y ∈ safe_softmax x, 0 ≤ y ∧ y ≤ 1) ∧ (safe_softmax x).sum = 1)
    ∧ ((∀ y ∈ online_softmax x, 0 ≤ y ∧ y ≤ 1) ∧ (online_softmax x).sum = 1) := by
  have hstd := standard_softmax_stochastic hx
  refine ⟨hstd, ?_, ?_⟩
  · rw [safe_eq_standard x]
    exact hstd
  · rw [online_eq_standard x]
    exact hstd

/-- Witness for claim C9 at the concrete nonempty input consisting of the
single entry 0. -/
theorem claim_C9_witness :
    ((∀ y ∈ standard_softmax [(0 : ℝ)], 0 ≤ y ∧ y ≤ 1)
        ∧ (standard_softmax [(0 : ℝ)]).sum = 1)
    ∧ ((∀ y ∈ safe_softmax [(0 : ℝ)], 0 ≤ y ∧ y ≤ 1)
        ∧ (safe_softmax [(0 : ℝ)]).sum = 1)
    ∧ ((∀ y ∈ online_softmax [(0 : ℝ)], 0 ≤ y ∧ y ≤ 1)
        ∧ (online_softmax [(0 : ℝ)]).sum = 1) :=
  claim_C9_softmax_row_stochastic [(0 : ℝ)] (List.cons_ne_nil 0 [])

/-! ### Row and matrix algebra -/

lemma smulRow_cons (c x : ℝ) (xs : List ℝ) :
    smulRow c (x :: xs) = (c * x) :: smulRow c xs := rfl

lemma length_smulRow (c : ℝ) (v : List ℝ) : (smulRow c v).length = v.length := by
  simp [smulRow]

lemma smulRow_smulRow (a b : ℝ) (v : List ℝ) :
    smulRow a (smulRow b v) = smulRow (a * b) v := by
  simp [smulRow, List.map_map, Function.comp, mul_assoc]

lemma smulRow_one (v : List ℝ) : smulRow 1 v = v := by
  simp [smulRow]

lemma smulRow_zeroRow (c : ℝ) (d : ℕ) : smulRow c (zeroRow d) = zeroRow d := by
  simp [smulRow, zeroRow, List.map_replicate]

lemma smulRow_addRow (c : ℝ) (a b : List ℝ) :
    smulRow c (addRow a b) = addRow (smulRow c a) (smulRow c b) := by
  induction a generalizing b with
  | nil => cases b <;> rfl
  | cons x xs ih =>
    cases b with
    | nil => rfl
    | cons y ys =>
      simp only [addRow, List.zipWith_cons_cons, smulRow_cons, mul_add,
        List.cons.injEq]
      exact ⟨trivial, ih ys⟩

lemma addRow_comm (a b : List ℝ) : addRow a b = addRow b a := by
  induction a generalizing b with
  | nil => cases b <;> rfl
  | cons x xs ih =>
    cases b with
    | nil => rfl
    | cons y ys =>
      simp only [addRow, List.zipWith_cons_cons, List.cons.injEq]
      exact ⟨add_comm x y, ih ys⟩

lemma addRow_assoc (a b c : List ℝ) :
    addRow (addRow a b) c = addRow a (addRow b c) := by
  induction a generalizing b c with
  | nil => cases b <;> cases c <;> rfl
  | cons x xs ih =>
    cases b with
    | nil => rfl
    | cons y ys =>
      cases c with
      | nil => rfl
      | cons z zs =>
        simp only [addRow, List.zipWith_cons_cons, List.cons.injEq]
        exact ⟨add_assoc x y z, ih ys zs⟩

lemma length_addRow (a b : List ℝ) :
    (addRow a b).length = min a.length b.length := by
  simp [addRow]

lemma addRow_zeroRow {v : List ℝ} {d : ℕ} (h : v.length = d) :
    addRow (zeroRow d) v = v := by
  induction v generalizing d with
  | nil => subst h; rfl
  | cons x xs ih =>
    subst h
    simp only [List.length_cons, zeroRow, List.replicate_succ, addRow,
      List.zipWith_cons_cons, zero_add, List.cons.injEq]
    exact ⟨trivial, ih rfl⟩

lemma zipWith_smulRow_map (c : ℝ) (w : List ℝ) (B : List (List ℝ)) :
    List.zipWith smulRow (smulRow c w) B
      = (List.zipWith smulRow w B).map (smulRow c) := by
  induction w generalizing B with
  | nil => rfl
  | cons x xs ih =>
    cases B with
    | nil => rfl
    | cons r rs =>
      rw [smulRow_cons]
      simp only [List.zipWith_cons_cons, List.map_cons]
      rw [← smulRow_smulRow, ih]

lemma foldr_addRow_map_smul (c : ℝ) (d : ℕ) (L : List (List ℝ)) :
    (L.map (smulRow c)).foldr addRow (zeroRow d)
      = smulRow c (L.foldr addRow (zeroRow d)) := by
  induction L with
  | nil => simp [smulRow_zeroRow]
  | cons r rs ih =>
    simp only [List.map_cons, List.foldr_cons]
    rw [ih, ← smulRow_addRow]

lemma vecMat_smul (c : ℝ) (w : List ℝ) (B : List (List ℝ)) :
    vecMat (smulRow c w) B = smulRow c (vecMat w B) := by
  unfold vecMat
  rw [zipWith_smulRow_map, foldr_addRow_map_smul]

lemma map_div_eq_smulRow (t : ℝ) (v : List ℝ) :
    v.map (fun y => y / t) = smulRow t⁻¹ v := by
  simp [smulRow, div_eq_mul_inv, mul_comm]

lemma length_foldr_addRow {d : ℕ} {L : List (List ℝ)}
    (h : ∀ r ∈ L, r.length = d) :
    (L.foldr addRow (zeroRow d)).length = d := by
  induction L with
  | nil => simp [zeroRow]
  | cons r rs ih =>
    have hr := h r (List.mem_cons_self _ _)
    have ht := ih fun s hs => h s (List.mem_cons_of_mem _ hs)
    simp only [List.foldr_cons]
    rw [length_addRow, hr, ht, min_self]

lemma mem_zipWith_smulRow_length {d : ℕ} {w : List ℝ} {B : List (List ℝ)}
    (hB : ∀ r ∈ B, r.length = d) :
    ∀ r ∈ List.zipWith smulRow w B, r.length = d := by
  induction w generalizing B with
  | nil => simp
  | cons x xs ih =>
    cases B with
    | nil => simp
    | cons b bs =>
      intro r hr
      simp only [List.zipWith_cons_cons, List.mem_cons] at hr
      rcases hr with rfl | hr
      · rw [length_smulRow]
        exact hB b (List.mem_cons_self _ _)
      · exact ih (fun s hs => hB s (List.mem_cons_of_mem _ hs)) r hr

lemma length_vecMat {d : ℕ} {w : List ℝ} {B : List (List ℝ)}
    (hB : ∀ r ∈ B, r.length = d) (hBne : B ≠ []) :
    (vecMat w B).length = d := by
  unfold vecMat
  have hw : (B.headD []).length = d := by
    cases B with
    | nil => exact absurd rfl hBne
    | cons b bs => exact hB b (List.mem_cons_self _ _)
  rw [hw]
  exact length_foldr_addRow (mem_zipWith_smulRow_length hB)

lemma foldr_addRow_acc {d : ℕ} {L : List (List ℝ)} {acc : List ℝ}
    (hL : ∀ r ∈ L, r.length = d) (hacc : acc.length = d) :
    L.foldr addRow acc = addRow (L.foldr addRow (zeroRow d)) acc := by
  induction L with
  | nil =>
    simp only [List.foldr_nil]
    exact (addRow_zeroRow hacc).symm
  | cons r rs ih =>
    simp only [List.foldr_cons]
    rw [ih fun s hs => hL s (List.mem_cons_of_mem _ hs), ← addRow_assoc]

lemma vecMat_append {d : ℕ} {w1 w2 : List ℝ} {V1 V2 : List (List ℝ)}
    (hlen : w1.length = V1.length)
    (hV1 : ∀ r ∈ V1, r.length = d) (hV2 : ∀ r ∈ V2, r.length = d)
    (hV1ne : V1 ≠ []) (hV2ne : V2 ≠ []) :
    vecMat (w1 ++ w2) (V1 ++ V2) = addRow (vecMat w1 V1) (vecMat w2 V2) := by
  unfold vecMat
  have h1 : (V1.headD []).length = d := by
    cases V1 with
    | nil => exact absurd rfl hV1ne
    | cons b bs => exact hV1 b (List.mem_cons_self _ _)
  have h2 : (V2.headD []).length = d := by
    cases V2 with
    | nil => exact absurd rfl hV2ne
    | cons b bs => exact hV2 b (List.mem_cons_self _ _)
  have hhead : ((V1 ++ V2).headD []).length = d := by
    cases V1 with
    | nil => exact absurd rfl hV1ne
    | cons b bs => exact hV1 b (List.mem_cons_self _ _)
  rw [hhead, h1, h2, List.zipWith_append _ _ _ _ _ hlen, List.foldr_append]
  exact foldr_addRow_acc (mem_zipWith_smulRow_length hV1)
    (length_foldr_addRow (mem_zipWith_smulRow_length hV2))

lemma smulRow_exp_shift (ss : List ℝ) (a b : ℝ) :
    smulRow (Real.exp (a - b)) (ss.map (fun x => Real.exp (x - a)))
      = ss.map (fun x => Real.exp (x - b)) := by
  simp only [smulRow, List.map_map]
  refine List.map_congr_left fun x _ => ?_
  simp only [Function.comp_apply]
  rw [mul_comm]
  exact exp_sub_mul x a b

/-! ### Per-row invariant of the tiled loop -/

lemma wRow_sum_shift (x : List ℝ) (a b : ℝ) :
    (wRow x a).sum * Real.exp (a - b) = (wRow x b).sum := by
  simp only [wRow]
  exact sum_exp_shift x a b

lemma wRow_sum_pos {x : List ℝ} (hx : x ≠ []) (c : ℝ) :
    0 < (wRow x c).sum := by
  simp only [wRow]
  exact sum_exp_pos hx c

lemma smulRow_wRow (ss : List ℝ) (a b : ℝ) :
    smulRow (Real.exp (a - b)) (wRow ss a) = wRow ss b := by
  simp only [wRow]
  exact smulRow_exp_shift ss a b

lemma wRow_append (x y : List ℝ) (c : ℝ) :
    wRow (x ++ y) c = wRow x c ++ wRow y c := by
  simp [wRow]

lemma length_wRow (x : List ℝ) (c : ℝ) : (wRow x c).length = x.length := by
  simp [wRow]

lemma sij_append (qr : List ℝ) (K kb : List (List ℝ)) :
    sij qr (K ++ kb) = sij qr K ++ sij qr kb := by
  simp [sij]

lemma sij_ne_nil {qr : List ℝ} {K : List (List ℝ)} (h : K ≠ []) :
    sij qr K ≠ [] := by
  simp [sij, h]

lemma length_sij (qr : List ℝ) (K : List (List ℝ)) :
    (sij qr K).length = K.length := by
  simp [sij]

lemma rowMax_eq_of_runMax {x : List ℝ} {r : ℝ} (h : runMax x = ↑r) :
    rowMax x = r := by
  rw [rowMax, h, WithBot.unbot'_coe]

lemma rowStep_o (kb vb : List (List ℝ)) (qr : List ℝ) (st : RowSt) :
    (rowStep kb vb qr st).o
      = (addRow
          (vecMat (smulRow (Real.exp (mij qr kb - mnew st qr kb)) (pij qr kb)) vb)
          (smulRow (st.l * eexpSub st.m (mnew st qr kb)) st.o)).map
        (fun y => y / lnew st qr kb) := rfl

lemma rowStep_m (kb vb : List (List ℝ)) (qr : List ℝ) (st : RowSt) :
    (rowStep kb vb qr st).m = ↑(mnew st qr kb) := rfl

lemma rowStep_l (kb vb : List (List ℝ)) (qr : List ℝ) (st : RowSt) :
    (rowStep kb vb qr st).l = lnew st qr kb := rfl

lemma closedRow_o (qr : List ℝ) (K V : List (List ℝ)) :
    (closedRow qr K V).o
      = (vecMat (wRow (sij qr K) (rowMax (sij qr K))) V).map
          (fun y => y / (wRow (sij qr K) (rowMax (sij qr K))).sum) := rfl

lemma closedRow_m (qr : List ℝ) (K V : List (List ℝ)) :
    (closedRow qr K V).m = runMax (sij qr K) := rfl

lemma closedRow_l (qr : List ℝ) (K V : List (List ℝ)) :
    (closedRow qr K V).l = (wRow (sij qr K) (rowMax (sij qr K))).sum := rfl

lemma RowSt_ext {s t : RowSt} (ho : s.o = t.o) (hm : s.m = t.m)
    (hl : s.l = t.l) : s = t := by
  cases s
  cases t
  cases ho
  cases hm
  cases hl
  rfl

lemma rowStep_closedRow {d : ℕ} (qr : List ℝ) (K V kb vb : List (List ℝ))
    (hKne : K ≠ []) (hkbne : kb ≠ [])
    (hKV : K.length = V.length) (hkvb : kb.length = vb.length)
    (hV : ∀ r ∈ V, r.length = d) (hvb : ∀ r ∈ vb, r.length = d) :
    rowStep kb vb qr (closedRow qr K V) = closedRow qr (K ++ kb) (V ++ vb) := by
  have hVne : V ≠ [] := by
    intro h
    apply hKne
    rw [← List.length_eq_zero, hKV, h, List.length_nil]
  have hvbne : vb ≠ [] := by
    intro h
    apply hkbne
    rw [← List.length_eq_zero, hkvb, h, List.length_nil]
  have hssne : sij qr K ≠ [] := sij_ne_nil hKne
  have hssbne : sij qr kb ≠ [] := sij_ne_nil hkbne
  have hma : runMax (sij qr K) = ↑(rowMax (sij qr K)) := runMax_eq_coe_rowMax hssne
  have hmb : runMax (sij qr kb) = ↑(mij qr kb) := runMax_eq_coe_rowMax hssbne
  have hmnew : mnew (closedRow qr K V) qr kb
      = max (rowMax (sij qr K)) (mij qr kb) := by
    simp only [mnew]
    rw [closedRow_m, hma, mergeMax_coe_arg]
  have hrun_app : runMax (sij qr (K ++ kb))
      = ↑(max (rowMax (sij qr K)) (mij qr kb)) := by
    rw [sij_append, runMax_append, hma, hmb, ← coe_mergeMax, mergeMax_coe_arg]
  have hrow_app : rowMax (sij qr (K ++ kb))
      = max (rowMax (sij qr K)) (mij qr kb) := rowMax_eq_of_runMax hrun_app
  have hlnew : lnew (closedRow qr K V) qr kb
      = (wRow (sij qr (K ++ kb)) (max (rowMax (sij qr K)) (mij qr kb))).sum := by
    simp only [lnew, lij, pij]
    rw [hmnew, closedRow_l, closedRow_m, hma, eexpSub_coe,
      wRow_sum_shift, wRow_sum_shift, sij_append, wRow_append, List.sum_append]
  have hLpos : 0 < (wRow (sij qr K) (rowMax (sij qr K))).sum :=
    wRow_sum_pos hssne _
  have hcoef : (wRow (sij qr K) (rowMax (sij qr K))).sum
        * Real.exp (rowMax (sij qr K) - max (rowMax (sij qr K)) (mij qr kb))
        * ((wRow (sij qr K) (rowMax (sij qr K))).sum)⁻¹
      = Real.exp (rowMax (sij qr K) - max (rowMax (sij qr K)) (mij qr kb)) := by
    rw [mul_comm ((wRow (sij qr K) (rowMax (sij qr K))).sum) _, mul_assoc,
      mul_inv_cancel₀ hLpos.ne', mul_one]
  have hwlen : (wRow (sij qr K) (max (rowMax (sij qr K)) (mij qr kb))).length
      = V.length := by
    rw [length_wRow, length_sij, hKV]
  refine RowSt_ext ?_ ?_ ?_
  · rw [rowStep_o, closedRow_o qr (K ++ kb) (V ++ vb), hrow_app, hlnew, hmnew]
    refine congrArg (List.map (fun y => y /
      (wRow (sij qr (K ++ kb))
        (max (rowMax (sij qr K)) (mij qr kb))).sum)) ?_
    simp only [pij]
    rw [smulRow_wRow]
    rw [closedRow_l qr K V, closedRow_m qr K V, closedRow_o qr K V, hma,
      eexpSub_coe]
    rw [map_div_eq_smulRow, smulRow_smulRow, hcoef, ← vecMat_smul, smulRow_wRow]
    rw [addRow_comm, ← vecMat_append hwlen hV hvb hVne hvbne,
      ← wRow_append, ← sij_append]
  · rw [rowStep_m, hmnew, closedRow_m qr (K ++ kb) (V ++ vb), hrun_app]
  · rw [rowStep_l, hlnew, closedRow_l qr (K ++ kb) (V ++ vb), hrow_app]

lemma addRow_smulRow_zero {v z : List ℝ} (h : v.length ≤ z.length) :
    addRow v (smulRow 0 z) = v := by
  induction v generalizing z with
  | nil => rfl
  | cons x xs ih =>
    cases z with
    | nil => exact absurd h (by simp)
    | cons y ys =>
      simp only [smulRow_cons, addRow, List.zipWith_cons_cons, zero_mul,
        add_zero, List.cons.injEq]
      refine ⟨trivial, ih ?_⟩
      simpa using h

lemma mij_def (qr : List ℝ) (kb : List (List ℝ)) :
    mij qr kb = rowMax (sij qr kb) := rfl

lemma rowStep_initRow {d : ℕ} (qr : List ℝ) (kb vb : List (List ℝ))
    (hkbne : kb ≠ []) (hkvb : kb.length = vb.length)
    (hvb : ∀ r ∈ vb, r.length = d) (hqr : qr.length = d) :
    rowStep kb vb qr (initRow qr) = closedRow qr kb vb := by
  have hvbne : vb ≠ [] := by
    intro h
    apply hkbne
    rw [← List.length_eq_zero, hkvb, h, List.length_nil]
  have hssbne : sij qr kb ≠ [] := sij_ne_nil hkbne
  have hmb : runMax (sij qr kb) = ↑(mij qr kb) := runMax_eq_coe_rowMax hssbne
  have hmnew0 : mnew (initRow qr) qr kb = mij qr kb := by
    simp only [mnew, initRow]
    exact mergeMax_bot _
  have hlnew0 : lnew (initRow qr) qr kb = lij qr kb := by
    simp only [lnew]
    rw [hmnew0]
    simp [initRow, eexpSub_bot, sub_self, Real.exp_zero]
  refine RowSt_ext ?_ ?_ ?_
  · rw [rowStep_o, closedRow_o, hlnew0, hmnew0]
    rw [sub_self, Real.exp_zero, smulRow_one]
    have hinitl : (initRow qr).l = 0 := rfl
    have hinito : (initRow qr).o = qr.map (fun _ => 0) := rfl
    rw [hinitl, zero_mul, hinito]
    have hlen : (vecMat (pij qr kb) vb).length ≤ (qr.map (fun _ => (0 : ℝ))).length := by
      rw [length_vecMat hvb hvbne, List.length_map, hqr]
    rw [addRow_smulRow_zero hlen]
    simp only [pij, lij, mij_def]
  · rw [rowStep_m, hmnew0, closedRow_m, hmb]
  · rw [rowStep_l, hlnew0, closedRow_l]
    simp only [lij, pij, mij_def]

lemma foldl_rowStep_closedRow {d : ℕ} (qr : List ℝ)
    (kvbs : List (List (List ℝ) × List (List ℝ))) :
    ∀ K V : List (List ℝ),
      K ≠ [] → K.length = V.length → (∀ r ∈ V, r.length = d) →
      (∀ p ∈ kvbs, p.1 ≠ [] ∧ p.1.length = p.2.length ∧ ∀ r ∈ p.2, r.length = d) →
      kvbs.foldl (fun st p => rowStep p.1 p.2 qr st) (closedRow qr K V)
        = closedRow qr (K ++ (kvbs.map Prod.fst).flatten)
            (V ++ (kvbs.map Prod.snd).flatten) := by
  induction kvbs with
  | nil => intro K V _ _ _ _; simp
  | cons p ps ih =>
    intro K V hKne hKV hV hall
    obtain ⟨hp1, hp2, hp3⟩ := hall p (List.mem_cons_self _ _)
    simp only [List.foldl_cons]
    rw [rowStep_closedRow qr K V p.1 p.2 hKne hp1 hKV hp2 hV hp3]
    rw [ih (K ++ p.1) (V ++ p.2)
      (fun h => hKne (List.append_eq_nil.mp h).1)
      (by rw [List.length_append, List.length_append, hKV, hp2])
      (fun r hr => (List.mem_append.mp hr).elim (hV r) (hp3 r))
      (fun s hs => hall s (List.mem_cons_of_mem _ hs))]
    simp [List.append_assoc]

lemma foldl_rowStep_init {d : ℕ} (qr : List ℝ)
    (kvbs : List (List (List ℝ) × List (List ℝ)))
    (hne : kvbs ≠ [])
    (hall : ∀ p ∈ kvbs, p.1 ≠ [] ∧ p.1.length = p.2.length
      ∧ ∀ r ∈ p.2, r.length = d)
    (hqr : qr.length = d) :
    kvbs.foldl (fun st p => rowStep p.1 p.2 qr st) (initRow qr)
      = closedRow qr (kvbs.map Prod.fst).flatten (kvbs.map Prod.snd).flatten := by
  cases kvbs with
  | nil => exact absurd rfl hne
  | cons p ps =>
    obtain ⟨hp1, hp2, hp3⟩ := hall p (List.mem_cons_self _ _)
    simp only [List.foldl_cons]
    rw [rowStep_initRow qr p.1 p.2 hp1 hp2 hp3 hqr]
    rw [foldl_rowStep_closedRow qr ps p.1 p.2 hp1 hp2 hp3
      (fun s hs => hall s (List.mem_cons_of_mem _ hs))]
    simp

/-! ### Driver lemmas: nested loops, zipping and block slicing -/

lemma zipWith_snd (q : List α) :
    ∀ s : List β, q.length = s.length → List.zipWith (fun _ b => b) q s = s := by
  induction q with
  | nil =>
    intro s h
    rw [List.length_nil] at h
    rw [(List.length_eq_zero.mp h.symm :)]
    rfl
  | cons a q ih =>
    intro s h
    cases s with
    | nil => simp at h
    | cons b s =>
      simp only [List.zipWith_cons_cons, List.cons.injEq]
      exact ⟨trivial, ih s (by simpa using h)⟩

lemma zipWith_zipWith_right (f : α → β → γ) (g : α → δ → β) (q : List α) :
    ∀ s : List δ,
      List.zipWith f q (List.zipWith g q s)
        = List.zipWith (fun a b => f a (g a b)) q s := by
  induction q with
  | nil => intro s; rfl
  | cons a q ih =>
    intro s
    cases s with
    | nil => rfl
    | cons b s => simp only [List.zipWith_cons_cons, ih]

lemma foldl_zipWith_comm (g : γ → α → β → β) (q : List α) (kvs : List γ) :
    ∀ s0 : List β, q.length = s0.length →
      kvs.foldl (fun s kv => List.zipWith (g kv) q s) s0
        = List.zipWith (fun a b => kvs.foldl (fun st kv => g kv a st) b) q s0 := by
  induction kvs with
  | nil =>
    intro s0 h
    simp only [List.foldl_nil]
    exact (zipWith_snd q s0 h).symm
  | cons kv kvs ih =>
    intro s0 h
    simp only [List.foldl_cons]
    rw [ih (List.zipWith (g kv) q s0) (by rw [List.length_zipWith, h, min_self]),
      zipWith_zipWith_right]

lemma flatten_zipWith_zipWith {f : α → β → γ} :
    ∀ {A : List (List α)} {B : List (List β)},
      List.Forall₂ (fun a b => a.length = b.length) A B →
      (List.zipWith (fun qb sb => List.zipWith f qb sb) A B).flatten
        = List.zipWith f A.flatten B.flatten := by
  intro A B h
  induction h with
  | nil => rfl
  | @cons a b A B hab htail ih =>
    simp only [List.zipWith_cons_cons, List.flatten_cons]
    rw [List.zipWith_append _ _ _ _ _ hab, ih]

lemma forall₂_length_zipWith {g : α → β → β} :
    ∀ {A : List (List α)} {B : List (List β)},
      List.Forall₂ (fun a b => a.length = b.length) A B →
      List.Forall₂ (fun (a : List α) (b : List β) => a.length = b.length) A
        (List.zipWith (fun qb sb => List.zipWith g qb sb) A B) := by
  intro A B h
  induction h with
  | nil => exact List.Forall₂.nil
  | @cons a b A B hab htail ih =>
    simp only [List.zipWith_cons_cons]
    exact List.Forall₂.cons (by rw [List.length_zipWith, ← hab, min_self]) ih

lemma flatten_foldl_nested {g : γ → α → β → β} (kvs : List γ) :
    ∀ (qbs : List (List α)) (sbs : List (List β)),
      List.Forall₂ (fun a b => a.length = b.length) qbs sbs →
      (kvs.foldl (fun sts kv =>
          List.zipWith (fun qb stb => List.zipWith (g kv) qb stb) qbs sts) sbs).flatten
        = kvs.foldl (fun s kv => List.zipWith (g kv) qbs.flatten s) sbs.flatten := by
  induction kvs with
  | nil => intro qbs sbs _; rfl
  | cons kv kvs ih =>
    intro qbs sbs h
    simp only [List.foldl_cons]
    rw [ih qbs _ (forall₂_length_zipWith h), flatten_zipWith_zipWith h]

lemma forall₂_map_self (f : α → β) (L : List (List α)) :
    List.Forall₂ (fun (a : List α) (b : List β) => a.length = b.length) L
      (L.map (List.map f)) := by
  induction L with
  | nil => exact List.Forall₂.nil
  | cons a L ih => exact List.Forall₂.cons (List.length_map a f).symm ih

lemma zipWith_map_right (f : α → β → γ) (g : α → β) (l : List α) :
    List.zipWith f l (l.map g) = l.map (fun a => f a (g a)) := by
  induction l with
  | nil => rfl
  | cons a l ih => simp only [List.map_cons, List.zipWith_cons_cons, ih]

lemma pyBlocks_eq_aux (x : List α) (N b : ℕ) :
    pyBlocks x N b
      = (List.range ((N + b - 1) / b)).map (fun i => (x.drop (i * b)).take b) := by
  simp [pyBlocks, pyRange, List.map_map, Function.comp]

lemma pyCount_eq {b N : ℕ} (hb : 0 < b) (hdvd : b ∣ N) :
    (N + b - 1) / b = N / b := by
  obtain ⟨q, rfl⟩ := hdvd
  have h1 : b * q + b - 1 = b * q + (b - 1) := by omega
  rw [h1, Nat.mul_add_div hb, Nat.mul_div_cancel_left q hb,
    Nat.div_eq_of_lt (by omega), add_zero]

lemma flatten_blocks_aux (x : List α) (b : ℕ) :
    ∀ c : ℕ,
      ((List.range c).map (fun i => (x.drop (i * b)).take b)).flatten
        = x.take (c * b) := by
  intro c
  induction c with
  | zero => simp
  | succ c ih =>
    rw [List.range_succ, List.map_append, List.flatten_append, ih]
    simp only [List.map_cons, List.map_nil, List.flatten_cons, List.flatten_nil,
      List.append_nil]
    rw [Nat.succ_mul, List.take_add]

lemma flatten_pyBlocks {b N : ℕ} (hb : 0 < b) (hdvd : b ∣ N) (x : List α) :
    (pyBlocks x N b).flatten = x.take N := by
  rw [pyBlocks_eq_aux, pyCount_eq hb hdvd, flatten_blocks_aux]
  congr 1
  exact Nat.div_mul_cancel hdvd

lemma pyBlocks_map (f : α → β) (x : List α) (N b : ℕ) :
    pyBlocks (x.map f) N b = (pyBlocks x N b).map (List.map f) := by
  unfold pyBlocks
  rw [List.map_map]
  apply List.map_congr_left
  intro i _
  simp [Function.comp, List.map_take, List.map_drop]

lemma pyBlocks_mem_length {b N : ℕ} {x : List α} (hb : 0 < b) (hdvd : b ∣ N)
    (hxN : N ≤ x.length) : ∀ blk ∈ pyBlocks x N b, blk.length = b := by
  rw [pyBlocks_eq_aux, pyCount_eq hb hdvd]
  intro blk hblk
  obtain ⟨i, hi, rfl⟩ := List.mem_map.mp hblk
  have hi' : i < N / b := List.mem_range.mp hi
  have hle : i * b + b ≤ N := by
    have h1 : (i + 1) * b ≤ (N / b) * b := Nat.mul_le_mul_right _ hi'
    have h2 : (N / b) * b = N := Nat.div_mul_cancel hdvd
    have h3 : (i + 1) * b = i * b + b := by ring
    omega
  rw [List.length_take, List.length_drop]
  refine min_eq_left ?_
  omega

lemma pyBlocks_row_mem {x : List α} {N b : ℕ} :
    ∀ blk ∈ pyBlocks x N b, ∀ r ∈ blk, r ∈ x := by
  intro blk hblk r hr
  simp only [pyBlocks, pyRange, List.mem_map] at hblk
  obtain ⟨i, _, rfl⟩ := hblk
  exact List.mem_of_mem_drop (List.mem_of_mem_take hr)

lemma length_pyBlocks (x : List α) (N b : ℕ) :
    (pyBlocks x N b).length = (N + b - 1) / b := by
  simp [pyBlocks, pyRange]

/-! ### The tiled loop equals the closed per-row form -/

lemma flashStates_flatten {d : ℕ} {q k v : List (List ℝ)} {b_r b_c : ℕ}
    (hbr : 0 < b_r) (hbc : 0 < b_c)
    (hdr : b_r ∣ q.length) (hdc : b_c ∣ q.length)
    (hk : k.length = q.length) (hv : v.length = q.length)
    (hq : ∀ r ∈ q, r.length = d) (hkd : ∀ r ∈ k, r.length = d)
    (hvd : ∀ r ∈ v, r.length = d) :
    (flashStates q k v b_r b_c).flatten = q.map (fun qr => closedRow qr k v) := by
  rcases eq_or_ne q [] with rfl | hqne
  · have hk0 : k = [] := List.length_eq_zero.mp (by rw [hk]; rfl)
    have hv0 : v = [] := List.length_eq_zero.mp (by rw [hv]; rfl)
    subst hk0
    subst hv0
    have h1 : (b_r - 1) / b_r = 0 := Nat.div_eq_of_lt (by omega)
    have h2 : (b_c - 1) / b_c = 0 := Nat.div_eq_of_lt (by omega)
    simp [flashStates, pyBlocks, pyRange, h1, h2]
  · have hN : 0 < q.length := List.length_pos.mpr hqne
    have hkN : q.length ≤ k.length := le_of_eq hk.symm
    have hvN : q.length ≤ v.length := le_of_eq hv.symm
    simp only [flashStates]
    rw [pyBlocks_map]
    rw [flatten_foldl_nested _ _ _ (forall₂_map_self initRow (pyBlocks q q.length b_r))]
    rw [← List.map_flatten, flatten_pyBlocks hbr hdr, List.take_length]
    rw [foldl_zipWith_comm _ q _ (q.map initRow) (List.length_map q initRow).symm]
    rw [zipWith_map_right]
    apply List.map_congr_left
    intro qr hqr
    have hlenk : (pyBlocks k q.length b_c).length = (pyBlocks v q.length b_c).length := by
      rw [length_pyBlocks, length_pyBlocks]
    have hcount : 0 < ((pyBlocks k q.length b_c).zip (pyBlocks v q.length b_c)).length := by
      rw [List.length_zip, ← hlenk, min_self, length_pyBlocks,
        pyCount_eq hbc hdc]
      exact Nat.div_pos (Nat.le_of_dvd hN hdc) hbc
    have hall : ∀ p ∈ (pyBlocks k q.length b_c).zip (pyBlocks v q.length b_c),
        p.1 ≠ [] ∧ p.1.length = p.2.length ∧ ∀ r ∈ p.2, r.length = d := by
      intro p hp
      obtain ⟨p1, p2⟩ := p
      obtain ⟨hp1, hp2⟩ := List.of_mem_zip hp
      have hl1 : p1.length = b_c := pyBlocks_mem_length hbc hdc hkN p1 hp1
      have hl2 : p2.length = b_c := pyBlocks_mem_length hbc hdc hvN p2 hp2
      refine ⟨?_, ?_, ?_⟩
      · show p1 ≠ []
        intro h
        rw [h] at hl1
        exact absurd hl1.symm hbc.ne'
      · show p1.length = p2.length
        rw [hl1, hl2]
      · show ∀ r ∈ p2, r.length = d
        intro r hr
        exact hvd r (pyBlocks_row_mem p2 hp2 r hr)
    rw [foldl_rowStep_init qr _
      (fun h => by rw [h] at hcount; simp at hcount) hall (hq qr hqr)]
    rw [List.map_fst_zip _ _ (le_of_eq hlenk),
      List.map_snd_zip _ _ (le_of_eq hlenk.symm)]
    rw [flatten_pyBlocks hbc hdc, flatten_pyBlocks hbc hdc]
    have htk : List.take q.length k = k := by
      rw [← hk]
      exact List.take_length k
    have htv : List.take q.length v = v := by
      rw [← hv]
      exact List.take_length v
    rw [htk, htv]

lemma vecMat_map_div (w : List ℝ) (V : List (List ℝ)) (t : ℝ) :
    vecMat (w.map (fun x => x / t)) V = (vecMat w V).map (fun y => y / t) := by
  rw [map_div_eq_smulRow, map_div_eq_smulRow, vecMat_smul]

lemma standard_attention_rows (Q K V : List (List ℝ)) :
    standard_attention Q K V = Q.map (fun qr => (closedRow qr K V).o) := by
  simp only [standard_attention, scoresMat, matmul, List.map_map]
  apply List.map_congr_left
  intro qr _
  rw [closedRow_o, ← vecMat_map_div]
  rfl

lemma flashCompute_eq {d : ℕ} {q k v : List (List ℝ)} {b_r b_c : ℕ}
    (hbr : 0 < b_r) (hbc : 0 < b_c)
    (hdr : b_r ∣ q.length) (hdc : b_c ∣ q.length)
    (hk : k.length = q.length) (hv : v.length = q.length)
    (hq : ∀ r ∈ q, r.length = d) (hkd : ∀ r ∈ k, r.length = d)
    (hvd : ∀ r ∈ v, r.length = d) :
    flashCompute q k v b_r b_c = standard_attention q k v := by
  have h1 : flashCompute q k v b_r b_c
      = ((flashStates q k v b_r b_c).map (List.map RowSt.o)).flatten := rfl
  rw [h1, ← List.map_flatten,
    flashStates_flatten hbr hbc hdr hdc hk hv hq hkd hvd,
    List.map_map, standard_attention_rows]
  rfl

lemma head_length {d : ℕ} {x : List (List ℝ)} (hx : x ≠ [])
    (hxd : ∀ r ∈ x, r.length = d) : (x.headD []).length = d := by
  cases x with
  | nil => exact absurd rfl hx
  | cons a t => exact hxd a (List.mem_cons_self _ _)

lemma flash_eq_standard {d : ℕ} {q k v : List (List ℝ)} {b_r b_c : ℕ}
    (hbr : 0 < b_r) (hbc : 0 < b_c)
    (hdr : b_r ∣ q.length) (hdc : b_c ∣ q.length)
    (hk : k.length = q.length) (hv : v.length = q.length)
    (hq : ∀ r ∈ q, r.length = d) (hkd : ∀ r ∈ k, r.length = d)
    (hvd : ∀ r ∈ v, r.length = d) :
    flash_attention q k v b_r b_c = some (standard_attention q k v) := by
  have hg1 : ¬(b_r = 0 ∨ b_c = 0) := by
    rintro (h | h)
    exacts [hbr.ne' h, hbc.ne' h]
  have hg2 : q.length % b_r = 0 := Nat.dvd_iff_mod_eq_zero.mp hdr
  have hg3 : k.length % b_c = 0 := by
    rw [hk]
    exact Nat.dvd_iff_mod_eq_zero.mp hdc
  have hg4 : v.length % b_c = 0 := by
    rw [hv]
    exact Nat.dvd_iff_mod_eq_zero.mp hdc
  have hg5 : (q.headD []).length = (k.headD []).length ∧
      (k.headD []).length = (v.headD []).length := by
    rcases eq_or_ne q [] with rfl | hqne
    · have hk0 : k = [] := List.length_eq_zero.mp (by rw [hk]; rfl)
      have hv0 : v = [] := List.length_eq_zero.mp (by rw [hv]; rfl)
      rw [hk0, hv0]
      exact ⟨rfl, rfl⟩
    · have hkne : k ≠ [] := by
        intro h
        have h0 : q.length = 0 := by rw [← hk, h]; rfl
        exact hqne (List.length_eq_zero.mp h0)
      have hvne : v ≠ [] := by
        intro h
        have h0 : q.length = 0 := by rw [← hv, h]; rfl
        exact hqne (List.length_eq_zero.mp h0)
      rw [head_length hqne hq, head_length hkne hkd, head_length hvne hvd]
      exact ⟨rfl, rfl⟩
  simp only [flash_attention]
  rw [if_neg hg1, if_neg (not_not_intro hg2), if_neg (not_not_intro hg3),
    if_neg (not_not_intro hg4), if_neg (not_not_intro hg5)]
  exact congrArg some (flashCompute_eq hbr hbc hdr hdc hk hv hq hkd hvd)

/-- Any proof that the column-count guard fails whenever the first four
guards pass shows that flash_attention produces no output. -/
lemma flash_attention_guarded {q k v : List (List ℝ)} {b_r b_c : ℕ}
    (h : ¬(b_r = 0 ∨ b_c = 0) → ¬¬ q.length % b_r = 0 → ¬¬ k.length % b_c = 0 →
      ¬¬ v.length % b_c = 0 →
      ¬((q.headD []).length = (k.headD []).length ∧
        (k.headD []).length = (v.headD []).length)) :
    flash_attention q k v b_r b_c = none := by
  simp only [flash_attention]
  by_cases h1 : b_r = 0 ∨ b_c = 0
  · rw [if_pos h1]
  · rw [if_neg h1]
    by_cases h2 : ¬ q.length % b_r = 0
    · rw [if_pos h2]
    · rw [if_neg h2]
      by_cases h3 : ¬ k.length % b_c = 0
      · rw [if_pos h3]
      · rw [if_neg h3]
        by_cases h4 : ¬ v.length % b_c = 0
        · rw [if_pos h4]
        · rw [if_neg h4, if_pos (h h1 h2 h3 h4)]

lemma pyBlocks_take {b N : ℕ} (hb : 0 < b) (hdvd : b ∣ N) (x : List α) :
    pyBlocks (x.take N) N b = pyBlocks x N b := by
  rw [pyBlocks_eq_aux, pyBlocks_eq_aux, pyCount_eq hb hdvd]
  apply List.map_congr_left
  intro i hi
  have hi' : i < N / b := List.mem_range.mp hi
  have hle : i * b + b ≤ N := by
    have h1 : (i + 1) * b ≤ (N / b) * b := Nat.mul_le_mul_right _ hi'
    have h2 : (N / b) * b = N := Nat.div_mul_cancel hdvd
    have h3 : (i + 1) * b = i * b + b := by ring
    omega
  rw [List.drop_take, List.take_take, min_eq_left (by omega)]

lemma flashCompute_take {q k v : List (List ℝ)} {b_r b_c : ℕ}
    (hbc : 0 < b_c) (hdc : b_c ∣ q.length) :
    flashCompute q (k.take q.length) (v.take q.length) b_r b_c
      = flashCompute q k v b_r b_c := by
  simp only [flashCompute, flashStates]
  rw [pyBlocks_take hbc hdc, pyBlocks_take hbc hdc]

lemma le_mergeMax (m : WithBot ℝ) (v : ℝ) : v ≤ mergeMax m v := by
  induction m using WithBot.recBotCoe with
  | bot => exact le_refl v
  | coe a => exact le_max_right a v

/-! ### Claim theorems for the tiled attention driver -/

/-- Claim C1: for every Q, K, V of shape N by d and every pair of tile
sizes dividing N, the tiled routine flash_attention returns exactly the
matrix computed by the full-matrix reference standard_attention (over
exact real arithmetic). -/
theorem claim_C1_flash_eq_standard (d : ℕ) (q k v : List (List ℝ))
    (b_r b_c : ℕ)
    (hbr : 0 < b_r) (hbc : 0 < b_c)
    (hdr : b_r ∣ q.length) (hdc : b_c ∣ q.length)
    (hk : k.length = q.length) (hv : v.length = q.length)
    (hq : ∀ r ∈ q, r.length = d) (hkd : ∀ r ∈ k, r.length = d)
    (hvd : ∀ r ∈ v, r.length = d) :
    flash_attention q k v b_r b_c = some (standard_attention q k v) :=
  flash_eq_standard hbr hbc hdr hdc hk hv hq hkd hvd

/-- Witness for claim C1 at the concrete one-by-one input with a single
tile. -/
theorem claim_C1_witness :
    flash_attention [[(0 : ℝ)]] [[(0 : ℝ)]] [[(0 : ℝ)]] 1 1
      = some (standard_attention [[(0 : ℝ)]] [[(0 : ℝ)]] [[(0 : ℝ)]]) :=
  claim_C1_flash_eq_standard 1 [[(0 : ℝ)]] [[(0 : ℝ)]] [[(0 : ℝ)]] 1 1
    one_pos one_pos (one_dvd _) (one_dvd _) rfl rfl
    (by simp) (by simp) (by simp)

/-- Claim C7: the tiled attention result is independent of the tile-size
configuration, including the degenerate single-tile case: any two valid
pairs of tile sizes produce equal outputs. -/
theorem claim_C7_tile_size_invariance (d : ℕ) (q k v : List (List ℝ))
    (b_r b_c a_r a_c : ℕ)
    (hbr : 0 < b_r) (hbc : 0 < b_c) (har : 0 < a_r) (hac : 0 < a_c)
    (hdr : b_r ∣ q.length) (hdc : b_c ∣ q.length)
    (hdr2 : a_r ∣ q.length) (hdc2 : a_c ∣ q.length)
    (hk : k.length = q.length) (hv : v.length = q.length)
    (hq : ∀ r ∈ q, r.length = d) (hkd : ∀ r ∈ k, r.length = d)
    (hvd : ∀ r ∈ v, r.length = d) :
    flash_attention q k v b_r b_c = flash_attention q k v a_r a_c :=
  (flash_eq_standard hbr hbc hdr hdc hk hv hq hkd hvd).trans
    (flash_eq_standard har hac hdr2 hdc2 hk hv hq hkd hvd).symm

/-- Witness for claim C7 at a two-row input, comparing tile size 1 with the
degenerate single tile of size 2. -/
theorem claim_C7_witness :
    flash_attention [[(0 : ℝ)], [0]] [[(0 : ℝ)], [0]] [[(0 : ℝ)], [0]] 1 1
      = flash_attention [[(0 : ℝ)], [0]] [[(0 : ℝ)], [0]] [[(0 : ℝ)], [0]] 2 2 :=
  claim_C7_tile_size_invariance 1 [[(0 : ℝ)], [0]] [[(0 : ℝ)], [0]]
    [[(0 : ℝ)], [0]] 1 1 2 2
    one_pos one_pos two_pos two_pos
    (one_dvd _) (one_dvd _) ⟨1, rfl⟩ ⟨1, rfl⟩ rfl rfl
    (by simp) (by simp) (by simp)

/-- Claim C3: at every tile step the merged state is
m_merged = max(m_old, m_local) and
l_merged = l_old exp(m_old - m_merged) + l_local exp(m_local - m_merged);
consequently, after all column tiles are processed, every row carries the
global row maximum and the total sum of exp(score - global max) over the
whole key sequence, exactly as a single safe pass with one global maximum
would. -/
theorem claim_C3_online_softmax_state (d : ℕ) (q k v : List (List ℝ))
    (b_r b_c : ℕ)
    (hbr : 0 < b_r) (hbc : 0 < b_c)
    (hdr : b_r ∣ q.length) (hdc : b_c ∣ q.length)
    (hk : k.length = q.length) (hv : v.length = q.length)
    (hq : ∀ r ∈ q, r.length = d) (hkd : ∀ r ∈ k, r.length = d)
    (hvd : ∀ r ∈ v, r.length = d) :
    (∀ (kb vb : List (List ℝ)) (qr : List ℝ) (st : RowSt),
        (rowStep kb vb qr st).m = max st.m ↑(mij qr kb)
        ∧ (rowStep kb vb qr st).l
            = st.l * eexpSub st.m (mnew st qr kb)
              + lij qr kb * Real.exp (mij qr kb - mnew st qr kb))
    ∧ (flashStates q k v b_r b_c).flatten.map RowSt.m
        = q.map (fun qr => ↑(rowMax (sij qr k)))
    ∧ (flashStates q k v b_r b_c).flatten.map RowSt.l
        = q.map (fun qr => (wRow (sij qr k) (rowMax (sij qr k))).sum) := by
  have hkne : ∀ qr, qr ∈ q → k ≠ [] := by
    intro qr hqr h
    have h0 : q.length = 0 := by rw [← hk, h]; rfl
    rw [List.length_eq_zero.mp h0] at hqr
    cases hqr
  refine ⟨fun kb vb qr st => ⟨?_, rfl⟩, ?_, ?_⟩
  · rw [rowStep_m]
    exact coe_mergeMax st.m (mij qr kb)
  · rw [flashStates_flatten hbr hbc hdr hdc hk hv hq hkd hvd, List.map_map]
    apply List.map_congr_left
    intro qr hqr
    show (closedRow qr k v).m = _
    rw [closedRow_m]
    exact runMax_eq_coe_rowMax (sij_ne_nil (hkne qr hqr))
  · rw [flashStates_flatten hbr hbc hdr hdc hk hv hq hkd hvd, List.map_map]
    apply List.map_congr_left
    intro qr hqr
    show (closedRow qr k v).l = _
    rw [closedRow_l]

/-- Witness for claim C3 at the concrete one-by-one input with a single
tile. -/
theorem claim_C3_witness :
    (∀ (kb vb : List (List ℝ)) (qr : List ℝ) (st : RowSt),
        (rowStep kb vb qr st).m = max st.m ↑(mij qr kb)
        ∧ (rowStep kb vb qr st).l
            = st.l * eexpSub st.m (mnew st qr kb)
              + lij qr kb * Real.exp (mij qr kb - mnew st qr kb))
    ∧ (flashStates [[(0 : ℝ)]] [[(0 : ℝ)]] [[(0 : ℝ)]] 1 1).flatten.map RowSt.m
        = [[(0 : ℝ)]].map (fun qr => ↑(rowMax (sij qr [[(0 : ℝ)]])))
    ∧ (flashStates [[(0 : ℝ)]] [[(0 : ℝ)]] [[(0 : ℝ)]] 1 1).flatten.map RowSt.l
        = [[(0 : ℝ)]].map
            (fun qr => (wRow (sij qr [[(0 : ℝ)]]) (rowMax (sij qr [[(0 : ℝ)]]))).sum) :=
  claim_C3_online_softmax_state 1 [[(0 : ℝ)]] [[(0 : ℝ)]] [[(0 : ℝ)]] 1 1
    one_pos one_pos (one_dvd _) (one_dvd _) rfl rfl
    (by simp) (by simp) (by simp)

/-- Claim C4: at every tile step with a finite previous maximum a, the
output row update is exactly
O_new = (O_old l_old exp(a - m_merged) + (P V_tile) exp(m_local - m_merged))
divided by l_merged, where P and m_local come from the block score kernel
and (m_merged, l_merged) is the merged state of the online-softmax
accumulator of the same step. -/
theorem claim_C4_output_accumulator (kb vb : List (List ℝ)) (qr : List ℝ)
    (st : RowSt) (a : ℝ) (hm : st.m = ↑a) :
    (rowStep kb vb qr st).o
      = (addRow
          (smulRow (st.l * Real.exp (a - max a (mij qr kb))) st.o)
          (smulRow (Real.exp (mij qr kb - max a (mij qr kb)))
            (vecMat (pij qr kb) vb))).map
        (fun y => y / (st.l * Real.exp (a - max a (mij qr kb))
            + lij qr kb * Real.exp (mij qr kb - max a (mij qr kb)))) := by
  have hmn : mnew st qr kb = max a (mij qr kb) := by
    simp only [mnew, hm, mergeMax_coe_arg]
  have hln : lnew st qr kb
      = st.l * Real.exp (a - max a (mij qr kb))
        + lij qr kb * Real.exp (mij qr kb - max a (mij qr kb)) := by
    simp only [lnew, hmn, hm, eexpSub_coe]
  rw [rowStep_o, hln, hmn, hm, eexpSub_coe, vecMat_smul, addRow_comm]

/-- Witness for claim C4 at a concrete state with finite maximum 0. -/
theorem claim_C4_witness :
    (rowStep [[(1 : ℝ)]] [[(1 : ℝ)]] [(1 : ℝ)]
        { o := [(0 : ℝ)], m := ((0 : ℝ) : WithBot ℝ), l := (1 : ℝ) }).o
      = (addRow
          (smulRow ((1 : ℝ) * Real.exp (0 - max 0 (mij [(1 : ℝ)] [[(1 : ℝ)]])))
            [(0 : ℝ)])
          (smulRow (Real.exp (mij [(1 : ℝ)] [[(1 : ℝ)]]
              - max 0 (mij [(1 : ℝ)] [[(1 : ℝ)]])))
            (vecMat (pij [(1 : ℝ)] [[(1 : ℝ)]]) [[(1 : ℝ)]]))).map
        (fun y => y / ((1 : ℝ) * Real.exp (0 - max 0 (mij [(1 : ℝ)] [[(1 : ℝ)]]))
            + lij [(1 : ℝ)] [[(1 : ℝ)]]
              * Real.exp (mij [(1 : ℝ)] [[(1 : ℝ)]]
                - max 0 (mij [(1 : ℝ)] [[(1 : ℝ)]])))) :=
  claim_C4_output_accumulator [[(1 : ℝ)]] [[(1 : ℝ)]] [(1 : ℝ)]
    { o := [(0 : ℝ)], m := ((0 : ℝ) : WithBot ℝ), l := (1 : ℝ) } 0 rfl

/-- Claim C5: every argument handed to the exponential by the tiled
computation is at most 0 or the -inf sentinel: the block kernel
exponentiates scores minus the local row maximum, both rescaling factors
subtract the merged maximum (which dominates), and the very first merge of
a row starts from normalizer 0 and the sentinel maximum, whose rescaling
term contributes exactly zero mass. -/
theorem claim_C5_exp_arguments (kb vb : List (List ℝ)) (qr : List ℝ)
    (st : RowSt) :
    (∀ x ∈ sij qr kb, x - mij qr kb ≤ 0)
    ∧ (∀ a : ℝ, st.m = ↑a → a - mnew st qr kb ≤ 0)
    ∧ mij qr kb - mnew st qr kb ≤ 0
    ∧ (initRow qr).l = 0 ∧ (initRow qr).m = ⊥
    ∧ (∀ c : ℝ, (initRow qr).l * eexpSub (initRow qr).m c = 0) := by
  refine ⟨?_, ?_, ?_, rfl, rfl, ?_⟩
  · intro x hx
    exact sub_nonpos.mpr (le_rowMax_of_mem hx)
  · intro a ha
    have h : mnew st qr kb = max a (mij qr kb) := by
      simp only [mnew, ha, mergeMax_coe_arg]
    rw [h]
    exact sub_nonpos.mpr (le_max_left a _)
  · exact sub_nonpos.mpr (le_mergeMax st.m (mij qr kb))
  · intro c
    simp [initRow, eexpSub_bot]

/-- Witness for claim C5: the score-kernel exponent argument is nonpositive
at a concrete input, obtained by applying the claim theorem and discharging
its membership and finite-maximum hypotheses. -/
theorem claim_C5_witness :
    (1 : ℝ) - mij [(1 : ℝ)] [[(1 : ℝ)]] ≤ 0
    ∧ (0 : ℝ) - mnew { o := [(0 : ℝ)], m := ((0 : ℝ) : WithBot ℝ), l := (1 : ℝ) }
        [(1 : ℝ)] [[(1 : ℝ)]] ≤ 0 := by
  refine ⟨?_, ?_⟩
  · refine (claim_C5_exp_arguments [[(1 : ℝ)]] [[(1 : ℝ)]] [(1 : ℝ)]
      (initRow [(1 : ℝ)])).1 1 ?_
    simp [sij, dot]
  · exact (claim_C5_exp_arguments [[(1 : ℝ)]] [[(1 : ℝ)]] [(1 : ℝ)]
      { o := [(0 : ℝ)], m := ((0 : ℝ) : WithBot ℝ), l := (1 : ℝ) }).2.1 0 rfl

/-- Claim C6: when a tile size fails to divide the corresponding row count
(the rows of Q by the row tile size, or the rows of K or of V by the
column tile size), flash_attention fails its asserts and produces no
output at all. -/
theorem claim_C6_configuration_error (q k v : List (List ℝ)) (b_r b_c : ℕ)
    (h : ¬ b_r ∣ q.length ∨ ¬ b_c ∣ k.length ∨ ¬ b_c ∣ v.length) :
    flash_attention q k v b_r b_c = none := by
  apply flash_attention_guarded
  intro h1 h2 h3 h4
  push_neg at h2 h3 h4
  rcases h with h | h | h
  · exact (h (Nat.dvd_iff_mod_eq_zero.mpr h2)).elim
  · exact (h (Nat.dvd_iff_mod_eq_zero.mpr h3)).elim
  · exact (h (Nat.dvd_iff_mod_eq_zero.mpr h4)).elim

/-- Witness for claim C6: the concrete scenario from the spec, five rows
with row tile size two, produces no output. -/
theorem claim_C6_witness :
    flash_attention [[(0 : ℝ)], [0], [0], [0], [0]]
      [[(0 : ℝ)], [0], [0], [0], [0]] [[(0 : ℝ)], [0], [0], [0], [0]] 2 5
      = none :=
  claim_C6_configuration_error _ _ _ 2 5 (Or.inl (by decide))

/-- Claim C2 (amended): the entry point fails before any tile work whenever
the column counts of Q, K, V disagree; it performs no check that the row
counts of K and V agree, and can produce an output while they disagree. -/
theorem claim_C2_amended_shape_error (q k v : List (List ℝ)) (b_r b_c : ℕ)
    (h : (q.headD []).length ≠ (k.headD []).length
      ∨ (k.headD []).length ≠ (v.headD []).length) :
    flash_attention q k v b_r b_c = none := by
  apply flash_attention_guarded
  intro _ _ _ _ hc
  rcases h with h | h
  · exact h hc.1
  · exact h hc.2

/-- Witness for the amended claim C2: a query with one column against keys
and values with two columns is rejected. -/
theorem claim_C2_amended_witness :
    flash_attention [[(0 : ℝ)]] [[(0 : ℝ), 0]] [[(0 : ℝ), 0]] 1 1 = none :=
  claim_C2_amended_shape_error _ _ _ 1 1 (Or.inl (by simp))

/-- Claim C2 is refuted on the code: here K has two rows and V has one, so
their row counts disagree, yet flash_attention checks nothing of the kind
and returns an output; the extra key row is never read because the slicing
of K is driven by the row count of Q. -/
theorem claim_C2_counterexample :
    ([[(0 : ℝ)], [0]] : List (List ℝ)).length
        ≠ ([[(1 : ℝ)]] : List (List ℝ)).length
    ∧ flash_attention [[(0 : ℝ)]] [[(0 : ℝ)], [0]] [[(1 : ℝ)]] 1 1
        = some [[(1 : ℝ)]] := by
  refine ⟨by simp, ?_⟩
  norm_num [flash_attention, flashCompute, flashStates, pyBlocks, pyRange,
    List.range_succ, rowStep, mnew, lnew, lij, pij, mij, sij, wRow, dot,
    rowMax, runMax, mergeMax, eexpSub, initRow, vecMat, smulRow, addRow,
    zeroRow, WithBot.recBotCoe_bot, WithBot.recBotCoe_coe, WithBot.unbot'_coe,
    Real.exp_zero]

/-- Claim C10 is refuted as stated: with N = 2 divisible by the column tile
size 2 and matching column counts, a K (and V) of three rows makes the
assert on the own row count of K fail, so no output is produced at all
instead of the extra rows being ignored. -/
theorem claim_C10_counterexample :
    ([[(0 : ℝ)], [0], [0]] : List (List ℝ)).length
        > ([[(0 : ℝ)], [0]] : List (List ℝ)).length
    ∧ 2 ∣ ([[(0 : ℝ)], [0]] : List (List ℝ)).length
    ∧ flash_attention [[(0 : ℝ)], [0]] [[(0 : ℝ)], [0], [0]]
        [[(0 : ℝ)], [0], [0]] 2 2 = none := by
  refine ⟨by simp, ⟨1, rfl⟩, ?_⟩
  apply flash_attention_guarded
  intro _ _ h3 _
  exact (h3 (by decide)).elim

/-- Claim C10 (amended): the tiling of K and V is driven by the row count N
of Q, so when the row counts of K and V are at least N and are themselves
divisible by the column tile size (as the asserts demand), the computation
succeeds and equals the computation on K and V truncated to their first N
rows: the extra key and value rows are silently ignored. -/
theorem claim_C10_amended (d : ℕ) (q k v : List (List ℝ)) (b_r b_c : ℕ)
    (hbr : 0 < b_r) (hbc : 0 < b_c)
    (hdr : b_r ∣ q.length) (hdc : b_c ∣ q.length)
    (hdk : b_c ∣ k.length) (hdv : b_c ∣ v.length)
    (hkN : q.length ≤ k.length) (hvN : q.length ≤ v.length)
    (hqne : q ≠ [])
    (hq : ∀ r ∈ q, r.length = d) (hkd : ∀ r ∈ k, r.length = d)
    (hvd : ∀ r ∈ v, r.length = d) :
    flash_attention q k v b_r b_c
        = flash_attention q (k.take q.length) (v.take q.length) b_r b_c
    ∧ (flash_attention q k v b_r b_c).isSome := by
  have hN : 0 < q.length := List.length_pos.mpr hqne
  have hkne : k ≠ [] := by
    intro h
    rw [h] at hkN
    exact absurd (Nat.le_zero.mp hkN) hN.ne'
  have hvne : v ≠ [] := by
    intro h
    rw [h] at hvN
    exact absurd (Nat.le_zero.mp hvN) hN.ne'
  have hlkt : (k.take q.length).length = q.length := by
    rw [List.length_take]
    exact min_eq_left hkN
  have hlvt : (v.take q.length).length = q.length := by
    rw [List.length_take]
    exact min_eq_left hvN
  have hktr : ∀ r ∈ k.take q.length, r.length = d :=
    fun r hr => hkd r (List.mem_of_mem_take hr)
  have hvtr : ∀ r ∈ v.take q.length, r.length = d :=
    fun r hr => hvd r (List.mem_of_mem_take hr)
  have horig : flash_attention q k v b_r b_c
      = some (flashCompute q k v b_r b_c) := by
    have hg1 : ¬(b_r = 0 ∨ b_c = 0) := by
      rintro (h | h)
      exacts [hbr.ne' h, hbc.ne' h]
    have hg2 : q.length % b_r = 0 := Nat.dvd_iff_mod_eq_zero.mp hdr
    have hg3 : k.length % b_c = 0 := Nat.dvd_iff_mod_eq_zero.mp hdk
    have hg4 : v.length % b_c = 0 := Nat.dvd_iff_mod_eq_zero.mp hdv
    have hg5 : (q.headD []).length = (k.headD []).length ∧
        (k.headD []).length = (v.headD []).length := by
      rw [head_length hqne hq, head_length hkne hkd, head_length hvne hvd]
      exact ⟨rfl, rfl⟩
    simp only [flash_attention]
    rw [if_neg hg1, if_neg (not_not_intro hg2), if_neg (not_not_intro hg3),
      if_neg (not_not_intro hg4), if_neg (not_not_intro hg5)]
  have htrunc : flash_attention q (k.take q.length) (v.take q.length) b_r b_c
      = some (standard_attention q (k.take q.length) (v.take q.length)) :=
    flash_eq_standard hbr hbc hdr hdc hlkt hlvt hq hktr hvtr
  constructor
  · rw [horig, htrunc, ← flashCompute_take hbc hdc,
      flashCompute_eq hbr hbc hdr hdc hlkt hlvt hq hktr hvtr]
  · rw [horig]
    rfl

/-- Witness for the amended claim C10: two query rows against four key and
value rows with column tile size two; the outputs of the full and the
truncated calls agree and an output is produced. -/
theorem claim_C10_amended_witness :
    (flash_attention [[(0 : ℝ)], [0]] [[(0 : ℝ)], [0], [0], [0]]
          [[(0 : ℝ)], [0], [0], [0]] 2 2
        = flash_attention [[(0 : ℝ)], [0]]
            ([[(0 : ℝ)], [0], [0], [0]].take [[(0 : ℝ)], [0]].length)
            ([[(0 : ℝ)], [0], [0], [0]].take [[(0 : ℝ)], [0]].length) 2 2)
    ∧ (flash_attention [[(0 : ℝ)], [0]] [[(0 : ℝ)], [0], [0], [0]]
        [[(0 : ℝ)], [0], [0], [0]] 2 2).isSome :=
  claim_C10_amended 1 [[(0 : ℝ)], [0]] [[(0 : ℝ)], [0], [0], [0]]
    [[(0 : ℝ)], [0], [0], [0]] 2 2
    two_pos two_pos ⟨1, rfl⟩ ⟨1, rfl⟩ ⟨2, rfl⟩ ⟨2, rfl⟩
    (by decide) (by decide) (by simp)
    (by simp) (by simp) (by simp)

end

end FastAttention
